import Mathlib

/-!
The segment cipher of `cipher.go` (kochman/cipher).

A shallow embedding of `cipherInput` and of its helpers `getSegment`,
`isInSlice` and `numberOfSegments`.

Modelling conventions.
* A Go `string` holding text is a Lean `String`; `strings.Split(x, "")` yields
  one one-character string per character, modelled as the `List Char` of the
  characters, and `strings.Join(output, "")` is `String.mk`.
* Go `int` values are modelled as `Int` (or `Nat` for counters that start at 0
  and are only incremented).  The largest value the code computes is
  `len(charList) + numberOfSegments(s)`, far below `2^63` for any string that
  fits in memory, so no wraparound is modelled.
* The slice access `charList[index]` panics in Go when the index is out of
  range; it is modelled by `indexSlice`, which returns `none` in that case, and
  `cipherInput` returns `none` when a panic would occur.
-/

namespace Cipher

/-! ## Constants -/

/-- The constant `CHARS` of `cipher.go`. -/
def CHARS : String := "yF0%U2kBap4@KbzSh3imc5Or9EsVefdjGAIgxW#vtLM6R&X7Tw1oDC*PnZ8quYHlQNJ^"

/-- The constant `SEGMENT_LENGTH` of `cipher.go`. -/
def SEGMENT_LENGTH : Nat := 10

/-- The local `charList := strings.Split(CHARS, "")` of `cipherInput`. -/
def charList : List Char := CHARS.data

/-! ## Utility functions -/

/-- The `range` loop of `getSegment`: `i` is the index of the next element,
`curSegment` and `seg` are the loop variables, the list is what is left of
`s`.  The `break` returns the accumulator. -/
def getSegmentLoop (num : Int) : Nat → Int → List Char → List Char → List Char
  | _, _, seg, [] => seg
  | i, curSegment, seg, x :: rest =>
    let curSegment := if i % SEGMENT_LENGTH = 0 ∧ i ≠ 0 then curSegment + 1 else curSegment
    if curSegment = num then
      getSegmentLoop num (i + 1) curSegment (seg ++ [x]) rest
    else if curSegment > num then
      seg
    else
      getSegmentLoop num (i + 1) curSegment seg rest

/-- The function `getSegment(s, num)`. -/
def getSegment (s : List Char) (num : Int) : List Char :=
  getSegmentLoop num 0 0 [] s

/-- The function `isInSlice(slice, x)`. -/
def isInSlice : List Char → Char → Bool
  | [], _ => false
  | y :: rest, x => if x = y then true else isInSlice rest x

/-- The `range` loop of `numberOfSegments`: `i` is the index of the next
element, `curSegment` the counter. -/
def numberOfSegmentsLoop : Nat → Nat → List Char → Nat
  | _, curSegment, [] => curSegment
  | i, curSegment, _ :: rest =>
    numberOfSegmentsLoop (i + 1) (if i % SEGMENT_LENGTH = 0 then curSegment + 1 else curSegment) rest

/-- The function `numberOfSegments(s)`. -/
def numberOfSegments (s : List Char) : Nat :=
  numberOfSegmentsLoop 0 0 s

/-! ## The two wraparound loops -/

/-- One pass through the body of `for index > len(charList)-1`. -/
def cipherStep (index : Int) : Int :=
  let distance := index - charList.length
  distance

/-- One pass through the body of `for index < 0`. -/
def decipherStep (index : Int) : Int :=
  let distance := -index
  charList.length - distance

/-- The loop `for index > len(charList)-1 { index = index - len(charList) }`. -/
def cipherWrap (index : Int) : Int :=
  if index > (charList.length : Int) - 1 then cipherWrap (cipherStep index) else index
termination_by index.toNat
decreasing_by
  have h : charList.length = 68 := by decide
  simp only [cipherStep]
  omega

/-- The loop `for index < 0 { index = len(charList) - (-index) }`. -/
def decipherWrap (index : Int) : Int :=
  if index < 0 then decipherWrap (decipherStep index) else index
termination_by (-index).toNat
decreasing_by
  have h : charList.length = 68 := by decide
  simp only [decipherStep]
  omega

/-! ## cipherInput -/

/-- The slice access `charList[index]`: `none` stands for the run-time panic
of an index out of range. -/
def indexSlice (l : List Char) (index : Int) : Option Char :=
  if index < 0 then none else l[index.toNat]?

/-- The innermost loop `for i, char := range charList` of `cipherInput`, with
`i` the index of the next element and the list what is left of `charList`. -/
def charLoop (cipher : Bool) (segNum : Nat) (letter : Char) :
    Nat → List Char → List Char → Option (List Char)
  | _, [], output => some output
  | i, char :: rest, output =>
    let index : Int :=
      if cipher then cipherWrap ((i : Int) + segNum + 1)
      else decipherWrap ((i : Int) - segNum - 1)
    if letter = char then
      match indexSlice charList index with
      | some c => charLoop cipher segNum letter (i + 1) rest (output ++ [c])
      | none => none
    else
      charLoop cipher segNum letter (i + 1) rest output

/-- The loop `for _, letter := range segment` of `cipherInput`. -/
def letterLoop (cipher : Bool) (segNum : Nat) : List Char → List Char → Option (List Char)
  | [], output => some output
  | letter :: rest, output =>
    if isInSlice charList letter then
      match charLoop cipher segNum letter 0 charList output with
      | some output1 => letterLoop cipher segNum rest output1
      | none => none
    else
      letterLoop cipher segNum rest (output ++ [letter])

/-- The loop `for segNum, segment := range segments` of `cipherInput`. -/
def segmentLoop (cipher : Bool) : Nat → List (List Char) → List Char → Option (List Char)
  | _, [], output => some output
  | segNum, segment :: rest, output =>
    match letterLoop cipher segNum segment output with
    | some output1 => segmentLoop cipher (segNum + 1) rest output1
    | none => none

/-- The function `cipherInput(input, cipher)`; `none` stands for a run-time
panic. -/
def cipherInput (input : String) (cipher : Bool) : Option String :=
  let s := input.data
  let segments := (List.range (numberOfSegments s)).map (fun i : Nat => getSegment s (i : Int))
  (segmentLoop cipher 0 segments []).map String.mk

/-! ## Closed forms used in the proofs

These two functions are not part of `cipher.go`: they name the value that the
loops above are proved to compute. -/

/-- The value the loops of `cipherInput` leave in `index` for alphabet index
`idx` in segment `segNum`. -/
def shiftIndex (cipher : Bool) (segNum : Nat) (idx : Nat) : Int :=
  if cipher then ((idx : Int) + segNum + 1) % 68 else ((idx : Int) - segNum - 1) % 68

/-- The character that `cipherInput` appends for `letter` in segment `segNum`. -/
def substitute (cipher : Bool) (segNum : Nat) (letter : Char) : Char :=
  if letter ∈ charList then
    charList.getD (shiftIndex cipher segNum (charList.indexOf letter)).toNat letter
  else letter

/-- The characters that `cipherInput` appends for the run `l` of the input
that starts at position `p`. -/
def substituteFrom (cipher : Bool) : Nat → List Char → List Char
  | _, [] => []
  | p, letter :: rest =>
    substitute cipher (p / SEGMENT_LENGTH) letter :: substituteFrom cipher (p + 1) rest

/-! ## The alphabet -/

theorem charList_length : charList.length = 68 := by decide

theorem charList_nodup : charList.Nodup := by decide

/-! ## The wraparound loops: termination and closed forms -/

theorem cipherWrap_eq_emod (index : Int) : 0 ≤ index → cipherWrap index = index % 68 := by
  induction index using cipherWrap.induct with
  | case1 index h ih =>
    intro h0
    have hl := charList_length
    rw [cipherWrap, if_pos h, ih (by simp only [cipherStep]; omega)]
    simp only [cipherStep]
    omega
  | case2 index h =>
    intro h0
    have hl := charList_length
    rw [cipherWrap, if_neg h]
    omega

theorem decipherWrap_eq_emod (index : Int) : index < 68 → decipherWrap index = index % 68 := by
  induction index using decipherWrap.induct with
  | case1 index h ih =>
    intro h0
    have hl := charList_length
    rw [decipherWrap, if_pos h, ih (by simp only [decipherStep]; omega)]
    simp only [decipherStep]
    omega
  | case2 index h =>
    intro h0
    rw [decipherWrap, if_neg h]
    omega

/-- The ciphering loop exits: after some number `k` of passes the loop
condition is false, and `cipherWrap` is the value of `index` at that point. -/
theorem cipherWrap_exits (index : Int) :
    ∃ k : Nat, (∀ j, j < k → cipherStep^[j] index > (charList.length : Int) - 1) ∧
      ¬ (cipherStep^[k] index > (charList.length : Int) - 1) ∧
      cipherWrap index = cipherStep^[k] index := by
  induction index using cipherWrap.induct with
  | case1 index h ih =>
    obtain ⟨k, hk1, hk2, hk3⟩ := ih
    refine ⟨k + 1, ?_, ?_, ?_⟩
    · intro j hj
      cases j with
      | zero => simpa using h
      | succ j => simpa [Function.iterate_succ_apply] using hk1 j (by omega)
    · simpa [Function.iterate_succ_apply] using hk2
    · rw [cipherWrap, if_pos h, hk3, Function.iterate_succ_apply]
  | case2 index h =>
    refine ⟨0, ?_, ?_, ?_⟩
    · intro j hj
      omega
    · simpa using h
    · rw [cipherWrap, if_neg h]
      rfl

/-- The deciphering loop exits: after some number `k` of passes the loop
condition is false, and `decipherWrap` is the value of `index` at that point. -/
theorem decipherWrap_exits (index : Int) :
    ∃ k : Nat, (∀ j, j < k → decipherStep^[j] index < 0) ∧
      ¬ (decipherStep^[k] index < 0) ∧
      decipherWrap index = decipherStep^[k] index := by
  induction index using decipherWrap.induct with
  | case1 index h ih =>
    obtain ⟨k, hk1, hk2, hk3⟩ := ih
    refine ⟨k + 1, ?_, ?_, ?_⟩
    · intro j hj
      cases j with
      | zero => simpa using h
      | succ j => simpa [Function.iterate_succ_apply] using hk1 j (by omega)
    · simpa [Function.iterate_succ_apply] using hk2
    · rw [decipherWrap, if_pos h, hk3, Function.iterate_succ_apply]
  | case2 index h =>
    refine ⟨0, ?_, ?_, ?_⟩
    · intro j hj
      omega
    · simpa using h
    · rw [decipherWrap, if_neg h]
      rfl

/-! ## Segments -/

theorem getSegmentLoop_eq (k : Nat) (rest : List Char) :
    ∀ (i : Nat) (seg : List Char),
      getSegmentLoop (k : Int) i (((i - 1) / 10 : Nat) : Int) seg rest
        = seg ++ (rest.take (10 * (k + 1) - i)).drop (10 * k - i) := by
  induction rest with
  | nil => intro i seg; simp [getSegmentLoop]
  | cons x rest ih =>
    intro i seg
    have hcur : (if i % SEGMENT_LENGTH = 0 ∧ i ≠ 0 then (((i - 1) / 10 : Nat) : Int) + 1
        else (((i - 1) / 10 : Nat) : Int)) = (((i + 1 - 1) / 10 : Nat) : Int) := by
      simp only [SEGMENT_LENGTH]
      split <;> omega
    simp only [getSegmentLoop]
    rw [hcur]
    by_cases h1 : (((i + 1 - 1) / 10 : Nat) : Int) = (k : Int)
    · rw [if_pos h1, ih (i + 1) (seg ++ [x])]
      have e1 : 10 * (k + 1) - i = (10 * (k + 1) - (i + 1)) + 1 := by omega
      have e2 : 10 * k - i = 0 := by omega
      have e3 : 10 * k - (i + 1) = 0 := by omega
      rw [e1, e2, e3]
      simp
    · rw [if_neg h1]
      by_cases h2 : (((i + 1 - 1) / 10 : Nat) : Int) > (k : Int)
      · rw [if_pos h2]
        have e1 : 10 * (k + 1) - i = 0 := by omega
        rw [e1]
        simp
      · rw [if_neg h2, ih (i + 1) seg]
        have e1 : 10 * (k + 1) - i = (10 * (k + 1) - (i + 1)) + 1 := by omega
        have e2 : 10 * k - i = (10 * k - (i + 1)) + 1 := by omega
        rw [e1, e2]
        simp

/-- Segment `k` is the run of `s` at positions `[10k, 10k + 10)`. -/
theorem getSegment_eq (s : List Char) (k : Nat) :
    getSegment s (k : Int) = (s.drop (10 * k)).take 10 := by
  have h := getSegmentLoop_eq k s 0 []
  simp only [Nat.zero_sub, Nat.zero_div, Nat.cast_zero, Nat.sub_zero, List.nil_append] at h
  rw [getSegment, h, List.drop_take]
  congr 1
  omega

theorem numberOfSegmentsLoop_eq (rest : List Char) :
    ∀ (i cur : Nat),
      numberOfSegmentsLoop i cur rest = cur + ((i + rest.length + 9) / 10 - (i + 9) / 10) := by
  induction rest with
  | nil => intro i cur; simp [numberOfSegmentsLoop]
  | cons x rest ih =>
    intro i cur
    simp only [numberOfSegmentsLoop, SEGMENT_LENGTH, List.length_cons]
    rw [ih]
    split <;> omega

theorem numberOfSegments_eq (s : List Char) : numberOfSegments s = (s.length + 9) / 10 := by
  rw [numberOfSegments, numberOfSegmentsLoop_eq]
  omega

/-! ## The loops of cipherInput -/

theorem isInSlice_iff (l : List Char) (x : Char) : isInSlice l x = true ↔ x ∈ l := by
  induction l with
  | nil => simp [isInSlice]
  | cons y rest ih =>
    simp only [isInSlice, List.mem_cons]
    by_cases h : x = y
    · simp [h]
    · simp [h, ih]

theorem shiftIndex_range (cipher : Bool) (segNum idx : Nat) :
    0 ≤ shiftIndex cipher segNum idx ∧ shiftIndex cipher segNum idx < 68 := by
  unfold shiftIndex
  split <;> omega

theorem wrap_eq_shiftIndex (cipher : Bool) (segNum idx : Nat) (h : idx < 68) :
    (if cipher then cipherWrap ((idx : Int) + segNum + 1)
      else decipherWrap ((idx : Int) - segNum - 1)) = shiftIndex cipher segNum idx := by
  unfold shiftIndex
  cases cipher with
  | true => simpa using cipherWrap_eq_emod _ (by omega)
  | false => simpa using decipherWrap_eq_emod _ (by omega)

theorem indexSlice_shiftIndex (cipher : Bool) (segNum idx : Nat) (d : Char) :
    indexSlice charList (shiftIndex cipher segNum idx)
      = some (charList.getD (shiftIndex cipher segNum idx).toNat d) := by
  have h := shiftIndex_range cipher segNum idx
  have hl := charList_length
  have hlt : (shiftIndex cipher segNum idx).toNat < charList.length := by omega
  rw [indexSlice, if_neg (by omega), List.getD_eq_getElem _ _ hlt, List.getElem?_eq_getElem hlt]

theorem charLoop_not_mem (cipher : Bool) (segNum : Nat) (letter : Char) (rest : List Char) :
    ∀ (i : Nat) (output : List Char), letter ∉ rest →
      charLoop cipher segNum letter i rest output = some output := by
  induction rest with
  | nil => intro i output _; rfl
  | cons c rest ih =>
    intro i output h
    simp only [List.mem_cons, not_or] at h
    simp only [charLoop, if_neg h.1]
    exact ih _ _ h.2

theorem charLoop_append (cipher : Bool) (segNum : Nat) (letter : Char) (a rest : List Char) :
    ∀ (i : Nat) (output : List Char), letter ∉ a →
      charLoop cipher segNum letter i (a ++ rest) output
        = charLoop cipher segNum letter (i + a.length) rest output := by
  induction a with
  | nil => intro i output _; rfl
  | cons c a ih =>
    intro i output h
    simp only [List.mem_cons, not_or] at h
    simp only [List.cons_append, charLoop, if_neg h.1, List.length_cons, List.append_eq]
    rw [ih _ _ h.2]
    congr 1
    omega

/-- The innermost loop appends exactly one character for a letter of the
alphabet. -/
theorem charLoop_mem (cipher : Bool) (segNum : Nat) (letter : Char) (output : List Char)
    (h : letter ∈ charList) :
    charLoop cipher segNum letter 0 charList output
      = some (output ++ [substitute cipher segNum letter]) := by
  obtain ⟨as, bs, hsplit, has⟩ := List.eq_append_cons_of_mem h
  have hnd := charList_nodup
  have hlen := charList_length
  rw [hsplit] at hnd hlen
  have hbs : letter ∉ bs := by
    have h1 := (List.nodup_append.mp hnd).2.1
    exact (List.nodup_cons.mp h1).1
  have hidx : charList.indexOf letter = as.length := by
    rw [hsplit, List.indexOf_append_of_not_mem has, List.indexOf_cons_self]
    rfl
  have haslt : as.length < 68 := by
    simp only [List.length_append, List.length_cons] at hlen
    omega
  have hsub : substitute cipher segNum letter
      = charList.getD (shiftIndex cipher segNum as.length).toNat letter := by
    rw [substitute, if_pos h, hidx]
  conv_lhs => rw [hsplit]
  rw [charLoop_append cipher segNum letter as (letter :: bs) 0 output has]
  simp only [charLoop, if_true, Nat.zero_add]
  rw [wrap_eq_shiftIndex cipher segNum as.length haslt,
    indexSlice_shiftIndex cipher segNum as.length letter]
  simp only []
  rw [charLoop_not_mem cipher segNum letter bs _ _ hbs, hsub]

theorem letterLoop_eq (cipher : Bool) (segNum : Nat) (segment : List Char) :
    ∀ output : List Char,
      letterLoop cipher segNum segment output
        = some (output ++ segment.map (substitute cipher segNum)) := by
  induction segment with
  | nil => intro output; simp [letterLoop]
  | cons letter rest ih =>
    intro output
    by_cases h : letter ∈ charList
    · have h1 : isInSlice charList letter = true := (isInSlice_iff _ _).mpr h
      simp only [letterLoop, h1, if_true, charLoop_mem cipher segNum letter output h]
      rw [ih]
      simp
    · have h1 : isInSlice charList letter = false := by
        rw [← Bool.not_eq_true, isInSlice_iff]
        exact h
      simp only [letterLoop, h1]
      rw [ih]
      simp [substitute, h]

theorem segmentLoop_eq_bind (cipher : Bool) (a b : List (List Char)) :
    ∀ (segNum : Nat) (output : List Char),
      segmentLoop cipher segNum (a ++ b) output
        = (segmentLoop cipher segNum a output).bind
            (fun o => segmentLoop cipher (segNum + a.length) b o) := by
  induction a with
  | nil => intro segNum output; simp [segmentLoop]
  | cons seg a ih =>
    intro segNum output
    simp only [List.cons_append, segmentLoop, letterLoop_eq, List.length_cons, List.append_eq]
    rw [ih]
    congr 1
    funext o
    congr 1
    omega

/-! ## The output of cipherInput, position by position -/

theorem substituteFrom_append (cipher : Bool) (a b : List Char) :
    ∀ p : Nat, substituteFrom cipher p (a ++ b)
      = substituteFrom cipher p a ++ substituteFrom cipher (p + a.length) b := by
  induction a with
  | nil => intro p; simp [substituteFrom]
  | cons x a ih =>
    intro p
    simp only [List.cons_append, substituteFrom, List.length_cons, List.append_eq]
    rw [ih]
    congr 3
    omega

theorem substituteFrom_eq_map (cipher : Bool) (k : Nat) (l : List Char) :
    ∀ p : Nat, 10 * k ≤ p → p + l.length ≤ 10 * (k + 1) →
      substituteFrom cipher p l = l.map (substitute cipher k) := by
  induction l with
  | nil => intro p _ _; rfl
  | cons x l ih =>
    intro p h1 h2
    simp only [List.length_cons] at h2
    have hk : p / SEGMENT_LENGTH = k := by
      simp only [SEGMENT_LENGTH]
      omega
    simp only [substituteFrom, List.map_cons, hk]
    rw [ih (p + 1) (by omega) (by omega)]

theorem length_substituteFrom (cipher : Bool) (l : List Char) :
    ∀ p : Nat, (substituteFrom cipher p l).length = l.length := by
  induction l with
  | nil => intro p; rfl
  | cons x l ih => intro p; simp [substituteFrom, ih]

theorem getElem?_substituteFrom (cipher : Bool) (l : List Char) :
    ∀ q p : Nat, (substituteFrom cipher q l)[p]?
      = l[p]?.map (substitute cipher ((q + p) / SEGMENT_LENGTH)) := by
  induction l with
  | nil => intro q p; simp [substituteFrom]
  | cons x l ih =>
    intro q p
    cases p with
    | zero => simp [substituteFrom]
    | succ p =>
      simp only [substituteFrom, List.getElem?_cons_succ]
      rw [ih]
      have e : (q + 1 + p) / SEGMENT_LENGTH = (q + (p + 1)) / SEGMENT_LENGTH := by
        congr 1
        omega
      rw [e]

/-- The segment loop run over the first `n` segments of `s` yields the
substitution of the first `10 * n` characters of `s`. -/
theorem segmentLoop_range (cipher : Bool) (s : List Char) (n : Nat) :
    segmentLoop cipher 0 ((List.range n).map (fun i : Nat => getSegment s (i : Int))) []
      = some (substituteFrom cipher 0 (s.take (10 * n))) := by
  induction n with
  | zero => simp [segmentLoop, substituteFrom]
  | succ n ih =>
    rw [List.range_succ, List.map_append, segmentLoop_eq_bind, ih]
    simp only [Option.some_bind, List.map_cons, List.map_nil, segmentLoop, letterLoop_eq,
      List.length_map, List.length_range, Nat.zero_add]
    have e : 10 * (n + 1) = 10 * n + 10 := by omega
    rw [e, List.take_add, substituteFrom_append, getSegment_eq, Nat.zero_add]
    congr 2
    by_cases hlen : s.length ≤ 10 * n
    · rw [List.drop_eq_nil_of_le hlen]
      simp [substituteFrom]
    · symm
      apply substituteFrom_eq_map
      · simp only [List.length_take]
        omega
      · simp only [List.length_take, List.length_drop]
        omega

/-- Position by position, `cipherInput` returns the substitution of its input. -/
theorem cipherInput_eq (input : String) (cipher : Bool) :
    cipherInput input cipher = some (String.mk (substituteFrom cipher 0 input.data)) := by
  have h : input.data.take (10 * numberOfSegments input.data) = input.data := by
    apply List.take_of_length_le
    rw [numberOfSegments_eq]
    omega
  simp only [cipherInput, segmentLoop_range, h, Option.map_some']

/-! ## Properties of the substitution of one character -/

theorem substitute_not_mem (cipher : Bool) (segNum : Nat) (letter : Char)
    (h : letter ∉ charList) : substitute cipher segNum letter = letter := by
  rw [substitute, if_neg h]

/-- For a letter found at index `idx` of the alphabet, the substitution is
the alphabet symbol at index `shiftIndex cipher segNum idx`. -/
theorem substitute_of_getElem? (cipher : Bool) (segNum idx : Nat) (letter : Char)
    (h : charList[idx]? = some letter) :
    ∃ j : Nat, j < 68 ∧ (j : Int) = shiftIndex cipher segNum idx ∧
      charList[j]? = some (substitute cipher segNum letter) := by
  have hl := charList_length
  have hr := shiftIndex_range cipher segNum idx
  obtain ⟨hidx, hget⟩ := List.getElem?_eq_some.mp h
  have hmem : letter ∈ charList := hget ▸ List.getElem_mem hidx
  have hix : charList.indexOf letter = idx := by
    rw [← hget]
    exact List.indexOf_getElem charList_nodup idx hidx
  refine ⟨(shiftIndex cipher segNum idx).toNat, by omega, by omega, ?_⟩
  have hlt : (shiftIndex cipher segNum idx).toNat < charList.length := by omega
  rw [substitute, if_pos hmem, hix, List.getD_eq_getElem _ _ hlt, List.getElem?_eq_getElem hlt]

theorem substitute_mem_iff (cipher : Bool) (segNum : Nat) (letter : Char) :
    substitute cipher segNum letter ∈ charList ↔ letter ∈ charList := by
  constructor
  · intro h
    by_contra hn
    rw [substitute_not_mem cipher segNum letter hn] at h
    exact hn h
  · intro h
    obtain ⟨idx, hidx, hget⟩ := List.getElem_of_mem h
    obtain ⟨j, _, _, hj⟩ := substitute_of_getElem? cipher segNum idx letter
      (by rw [List.getElem?_eq_getElem hidx, hget])
    exact List.getElem?_mem hj

/-- Substituting in one direction and then in the other, in the same
segment, gives the letter back. -/
theorem substitute_cancel (cipher : Bool) (segNum : Nat) (letter : Char) :
    substitute (!cipher) segNum (substitute cipher segNum letter) = letter := by
  by_cases h : letter ∈ charList
  · obtain ⟨idx, hidx, hget⟩ := List.getElem_of_mem h
    have hl := charList_length
    have h0 : charList[idx]? = some letter := by rw [List.getElem?_eq_getElem hidx, hget]
    obtain ⟨j, hj1, hj2, hj3⟩ := substitute_of_getElem? cipher segNum idx letter h0
    obtain ⟨m, hm1, hm2, hm3⟩ := substitute_of_getElem? (!cipher) segNum j _ hj3
    have hmi : m = idx := by
      have : (m : Int) = idx := by
        rw [hm2]
        unfold shiftIndex at hj2 ⊢
        cases cipher <;> simp only [Bool.not_true, Bool.not_false, if_true] at hj2 ⊢ <;>
          simp only [Bool.false_eq_true, if_false] at hj2 ⊢ <;> omega
      omega
    rw [hmi, h0] at hm3
    exact (Option.some.inj hm3).symm
  · rw [substitute_not_mem cipher segNum letter h, substitute_not_mem _ segNum letter h]

theorem substituteFrom_cancel (cipher : Bool) (l : List Char) :
    ∀ p : Nat, substituteFrom (!cipher) p (substituteFrom cipher p l) = l := by
  induction l with
  | nil => intro p; rfl
  | cons x l ih =>
    intro p
    simp only [substituteFrom, substitute_cancel, ih]

/-- What `cipherInput` returns at position `p`, in terms of `substitute`. -/
theorem cipherInput_getElem? (s : String) (cipher : Bool) (p : Nat) :
    ∃ out : String, cipherInput s cipher = some out ∧ out.length = s.length ∧
      out.data[p]? = s.data[p]?.map (substitute cipher (p / SEGMENT_LENGTH)) := by
  refine ⟨String.mk (substituteFrom cipher 0 s.data), cipherInput_eq s cipher, ?_, ?_⟩
  · show (substituteFrom cipher 0 s.data).length = s.data.length
    exact length_substituteFrom cipher s.data 0
  · show (substituteFrom cipher 0 s.data)[p]? = _
    rw [getElem?_substituteFrom, Nat.zero_add]

theorem CHARS_length : CHARS.length = 68 := charList_length

/-! ## The claims -/

/-- C1: round trip, decode after encode.  For every input string `s`,
ciphering `s` succeeds and deciphering the result gives `s` back:
`cipherInput(cipherInput(s, true), false) = s`. -/
theorem C1_decode_after_encode (s : String) :
    (cipherInput s true).bind (fun t => cipherInput t false) = some s := by
  rw [cipherInput_eq, Option.some_bind, cipherInput_eq]
  have h := substituteFrom_cancel true s.data 0
  simp only [Bool.not_true] at h
  simp only [h]

/-- C2: round trip, encode after decode.  For every input string `s`,
deciphering `s` succeeds and ciphering the result gives `s` back:
`cipherInput(cipherInput(s, false), true) = s`. -/
theorem C2_encode_after_decode (s : String) :
    (cipherInput s false).bind (fun t => cipherInput t true) = some s := by
  rw [cipherInput_eq, Option.some_bind, cipherInput_eq]
  have h := substituteFrom_cancel false s.data 0
  simp only [Bool.not_false] at h
  simp only [h]

/-- C3: length preservation.  For every input string `s` and both
directions, `cipherInput(s, cipher)` has exactly as many characters as `s`. -/
theorem C3_length_preserved (s : String) (cipher : Bool) :
    ∃ out : String, cipherInput s cipher = some out ∧ out.length = s.length := by
  obtain ⟨out, h1, h2, _⟩ := cipherInput_getElem? s cipher 0
  exact ⟨out, h1, h2⟩

/-- C4: pass-through.  For every input string `s`, every direction and every
position `p` of `s`, if the character `c` at position `p` does not occur in
`CHARS` then the character at position `p` of `cipherInput(s, cipher)` is `c`. -/
theorem C4_pass_through (s : String) (cipher : Bool) (p : Nat) (c : Char)
    (hp : s.data[p]? = some c) (hc : c ∉ CHARS.data) :
    ∃ out : String, cipherInput s cipher = some out ∧ out.data[p]? = some c := by
  obtain ⟨out, h1, _, h3⟩ := cipherInput_getElem? s cipher p
  refine ⟨out, h1, ?_⟩
  rw [h3, hp, Option.map_some', substitute_not_mem cipher _ c hc]

theorem C4_pass_through_witness :
    "a!b".data[1]? = some '!' ∧ '!' ∉ CHARS.data ∧
      ∃ out : String, cipherInput "a!b" true = some out ∧ out.data[1]? = some '!' :=
  ⟨by decide, by decide, C4_pass_through "a!b" true 1 '!' (by decide) (by decide)⟩

/-- C5: encode formula.  For every input string `s` and every position `p`
of `s` whose character `c` occurs in `CHARS` at index `idx`, the character at
position `p` of `cipherInput(s, true)` is
`CHARS[(idx + (p div SEGMENT_LENGTH) + 1) mod N]`, `N` the number of symbols
of `CHARS`. -/
theorem C5_encode_formula (s : String) (p idx : Nat) (c : Char)
    (hp : s.data[p]? = some c) (hc : CHARS.data[idx]? = some c) :
    ∃ (out : String) (c1 : Char), cipherInput s true = some out ∧
      CHARS.data[(idx + p / SEGMENT_LENGTH + 1) % CHARS.length]? = some c1 ∧
      out.data[p]? = some c1 := by
  obtain ⟨out, h1, _, h3⟩ := cipherInput_getElem? s true p
  obtain ⟨j, _, hj2, hj3⟩ := substitute_of_getElem? true (p / SEGMENT_LENGTH) idx c hc
  refine ⟨out, substitute true (p / SEGMENT_LENGTH) c, h1, ?_, ?_⟩
  · have hj : (idx + p / SEGMENT_LENGTH + 1) % CHARS.length = j := by
      rw [CHARS_length]
      simp only [shiftIndex, if_true] at hj2
      omega
    rw [hj]
    exact hj3
  · rw [h3, hp, Option.map_some']

theorem C5_encode_formula_witness :
    "Hello, World!".data[11]? = some 'd' ∧ CHARS.data[30]? = some 'd' ∧
      ∃ (out : String) (c1 : Char), cipherInput "Hello, World!" true = some out ∧
        CHARS.data[(30 + 11 / SEGMENT_LENGTH + 1) % CHARS.length]? = some c1 ∧
        out.data[11]? = some c1 :=
  ⟨by decide, by decide, C5_encode_formula "Hello, World!" 11 30 'd' (by decide) (by decide)⟩

/-- C6: decode formula.  For every input string `s` and every position `p`
of `s` whose character `c` occurs in `CHARS` at index `idx`, the character at
position `p` of `cipherInput(s, false)` is `CHARS[r]`, where `r` is the
non-negative residue of `idx - (p div SEGMENT_LENGTH) - 1` modulo `N`:
`0 ≤ r < N` and `idx - (p div SEGMENT_LENGTH) - 1 = q * N + r` for an integer
`q`.  There is no bound on `p`, hence none on the segment index. -/
theorem C6_decode_formula (s : String) (p idx : Nat) (c : Char)
    (hp : s.data[p]? = some c) (hc : CHARS.data[idx]? = some c) :
    ∃ (out : String) (c1 : Char) (r : Nat), cipherInput s false = some out ∧
      r < CHARS.length ∧
      (∃ q : Int, (idx : Int) - ((p / SEGMENT_LENGTH : Nat) : Int) - 1
        = q * (CHARS.length : Int) + (r : Int)) ∧
      (r : Int) = ((idx : Int) - ((p / SEGMENT_LENGTH : Nat) : Int) - 1) % (CHARS.length : Int) ∧
      CHARS.data[r]? = some c1 ∧ out.data[p]? = some c1 := by
  obtain ⟨out, h1, _, h3⟩ := cipherInput_getElem? s false p
  obtain ⟨j, hj1, hj2, hj3⟩ := substitute_of_getElem? false (p / SEGMENT_LENGTH) idx c hc
  simp only [shiftIndex, Bool.false_eq_true, if_false] at hj2
  refine ⟨out, substitute false (p / SEGMENT_LENGTH) c, j, h1, ?_, ?_, ?_, hj3, ?_⟩
  · rw [CHARS_length]
    exact hj1
  · refine ⟨((idx : Int) - ((p / SEGMENT_LENGTH : Nat) : Int) - 1) / 68, ?_⟩
    rw [CHARS_length]
    push_cast
    omega
  · rw [CHARS_length]
    push_cast
    exact hj2
  · rw [h3, hp, Option.map_some']

theorem C6_decode_formula_witness :
    "Hello, World!".data[11]? = some 'd' ∧ CHARS.data[30]? = some 'd' ∧
      ∃ (out : String) (c1 : Char) (r : Nat), cipherInput "Hello, World!" false = some out ∧
        r < CHARS.length ∧
        (∃ q : Int, ((30 : Nat) : Int) - ((11 / SEGMENT_LENGTH : Nat) : Int) - 1
          = q * (CHARS.length : Int) + (r : Int)) ∧
        (r : Int) = (((30 : Nat) : Int) - ((11 / SEGMENT_LENGTH : Nat) : Int) - 1)
          % (CHARS.length : Int) ∧
        CHARS.data[r]? = some c1 ∧ out.data[11]? = some c1 :=
  ⟨by decide, by decide, C6_decode_formula "Hello, World!" 11 30 'd' (by decide) (by decide)⟩

/-- C7: totality and in-range lookup.  For every input string and both
directions `cipherInput` returns an output (no panic); for every alphabet
index `i` and every segment number, each wraparound loop exits after a finite
number `k` of passes, and the index it leaves satisfies
`0 ≤ index < len(charList)`, so that `charList[index]` is defined. -/
theorem C7_total_in_range (s : String) (cipher : Bool) (i segNum : Nat)
    (hi : i < charList.length) :
    (∃ out : String, cipherInput s cipher = some out) ∧
    (∃ k : Nat,
      (∀ j, j < k → cipherStep^[j] ((i : Int) + segNum + 1) > (charList.length : Int) - 1) ∧
      ¬ (cipherStep^[k] ((i : Int) + segNum + 1) > (charList.length : Int) - 1) ∧
      cipherWrap ((i : Int) + segNum + 1) = cipherStep^[k] ((i : Int) + segNum + 1)) ∧
    (0 ≤ cipherWrap ((i : Int) + segNum + 1) ∧
      cipherWrap ((i : Int) + segNum + 1) < charList.length ∧
      (indexSlice charList (cipherWrap ((i : Int) + segNum + 1))).isSome = true) ∧
    (∃ k : Nat,
      (∀ j, j < k → decipherStep^[j] ((i : Int) - segNum - 1) < 0) ∧
      ¬ (decipherStep^[k] ((i : Int) - segNum - 1) < 0) ∧
      decipherWrap ((i : Int) - segNum - 1) = decipherStep^[k] ((i : Int) - segNum - 1)) ∧
    (0 ≤ decipherWrap ((i : Int) - segNum - 1) ∧
      decipherWrap ((i : Int) - segNum - 1) < charList.length ∧
      (indexSlice charList (decipherWrap ((i : Int) - segNum - 1))).isSome = true) := by
  have hl := charList_length
  have hc := wrap_eq_shiftIndex true segNum i (by omega)
  have hd := wrap_eq_shiftIndex false segNum i (by omega)
  simp only [if_true, Bool.false_eq_true, if_false] at hc hd
  have rc := shiftIndex_range true segNum i
  have rd := shiftIndex_range false segNum i
  refine ⟨⟨_, cipherInput_eq s cipher⟩, cipherWrap_exits _, ⟨?_, ?_, ?_⟩,
    decipherWrap_exits _, ⟨?_, ?_, ?_⟩⟩
  · rw [hc]; exact rc.1
  · rw [hc, hl]; exact rc.2
  · rw [hc, indexSlice_shiftIndex true segNum i 'y']; rfl
  · rw [hd]; exact rd.1
  · rw [hd, hl]; exact rd.2
  · rw [hd, indexSlice_shiftIndex false segNum i 'y']; rfl

theorem C7_total_in_range_witness :
    67 < charList.length ∧
    ((∃ out : String, cipherInput "Hello, World!" false = some out) ∧
    (∃ k : Nat,
      (∀ j, j < k → cipherStep^[j] (((67 : Nat) : Int) + (200 : Nat) + 1)
        > (charList.length : Int) - 1) ∧
      ¬ (cipherStep^[k] (((67 : Nat) : Int) + (200 : Nat) + 1) > (charList.length : Int) - 1) ∧
      cipherWrap (((67 : Nat) : Int) + (200 : Nat) + 1)
        = cipherStep^[k] (((67 : Nat) : Int) + (200 : Nat) + 1)) ∧
    (0 ≤ cipherWrap (((67 : Nat) : Int) + (200 : Nat) + 1) ∧
      cipherWrap (((67 : Nat) : Int) + (200 : Nat) + 1) < charList.length ∧
      (indexSlice charList (cipherWrap (((67 : Nat) : Int) + (200 : Nat) + 1))).isSome = true) ∧
    (∃ k : Nat,
      (∀ j, j < k → decipherStep^[j] (((67 : Nat) : Int) - (200 : Nat) - 1) < 0) ∧
      ¬ (decipherStep^[k] (((67 : Nat) : Int) - (200 : Nat) - 1) < 0) ∧
      decipherWrap (((67 : Nat) : Int) - (200 : Nat) - 1)
        = decipherStep^[k] (((67 : Nat) : Int) - (200 : Nat) - 1)) ∧
    (0 ≤ decipherWrap (((67 : Nat) : Int) - (200 : Nat) - 1) ∧
      decipherWrap (((67 : Nat) : Int) - (200 : Nat) - 1) < charList.length ∧
      (indexSlice charList (decipherWrap (((67 : Nat) : Int) - (200 : Nat) - 1))).isSome
        = true)) :=
  ⟨by decide, C7_total_in_range "Hello, World!" false 67 200 (by decide)⟩

/-- C8: the code at a failing input.  In the 671-character input made of
the alphabet character `a` only, position 670 lies in segment 67, where the
shift `67 + 1 = 68` is a full turn of the 68-symbol alphabet: ciphering leaves
the character at position 670 unchanged. -/
theorem C8_unchanged_in_segment_67 :
    (String.mk (List.replicate 671 'a')).data[670]? = some 'a' ∧ 'a' ∈ CHARS.data ∧
      ∃ out : String, cipherInput (String.mk (List.replicate 671 'a')) true = some out ∧
        out.data[670]? = some 'a' := by
  have h0 : (String.mk (List.replicate 671 'a')).data[670]? = some 'a' := by
    show (List.replicate 671 'a')[670]? = some 'a'
    rw [List.getElem?_replicate]
    exact if_pos (by omega)
  refine ⟨h0, by decide, ?_⟩
  obtain ⟨out, h1, _, h3⟩ := cipherInput_getElem? (String.mk (List.replicate 671 'a')) true 670
  refine ⟨out, h1, ?_⟩
  rw [h3, h0, Option.map_some']
  have hs : substitute true (670 / SEGMENT_LENGTH) 'a' = 'a' := by decide
  rw [hs]

/-- C9, as stated, fails for the last symbol of the alphabet: `^` is at
index 67 of `CHARS`, ciphering the one-character input `^` gives `y`, the
symbol at index 0, while `CHARS` has no symbol at index `(67 + 1) mod 69 = 68`. -/
theorem C9_counterexample :
    "^".data[0]? = some '^' ∧ CHARS.data[67]? = some '^' ∧
      cipherInput "^" true = some "y" ∧ CHARS.data[(67 + 1) % 69]? = none ∧
      ¬ ∃ (out : String) (c1 : Char), cipherInput "^" true = some out ∧
          CHARS.data[(67 + 1) % 69]? = some c1 ∧ out.data[0]? = some c1 := by
  refine ⟨by decide, by decide, ?_, by decide, ?_⟩
  · rw [cipherInput_eq]
    decide
  · rintro ⟨out, c1, _, h, _⟩
    have hn : CHARS.data[(67 + 1) % 69]? = none := by decide
    rw [hn] at h
    exact Option.noConfusion h

/-- C9, amended: for every non-empty input string whose first character `c`
occurs in `CHARS` at index `idx`, the first character of `cipherInput(s, true)`
is the alphabet symbol at index `(idx + 1) mod 68` of `CHARS`. -/
theorem C9_position_zero (s : String) (idx : Nat) (c : Char)
    (hp : s.data[0]? = some c) (hc : CHARS.data[idx]? = some c) :
    ∃ (out : String) (c1 : Char), cipherInput s true = some out ∧
      CHARS.data[(idx + 1) % 68]? = some c1 ∧ out.data[0]? = some c1 := by
  obtain ⟨out, h1, _, h3⟩ := cipherInput_getElem? s true 0
  obtain ⟨j, _, hj2, hj3⟩ := substitute_of_getElem? true (0 / SEGMENT_LENGTH) idx c hc
  refine ⟨out, substitute true (0 / SEGMENT_LENGTH) c, h1, ?_, ?_⟩
  · have hj : (idx + 1) % 68 = j := by
      simp only [shiftIndex, if_true, SEGMENT_LENGTH] at hj2
      omega
    rw [hj]
    exact hj3
  · rw [h3, hp, Option.map_some']

theorem C9_position_zero_witness :
    "^".data[0]? = some '^' ∧ CHARS.data[67]? = some '^' ∧
      ∃ (out : String) (c1 : Char), cipherInput "^" true = some out ∧
        CHARS.data[(67 + 1) % 68]? = some c1 ∧ out.data[0]? = some c1 :=
  ⟨by decide, by decide, C9_position_zero "^" 67 '^' (by decide) (by decide)⟩

/-- C10, as stated, fails: the number of symbols of `CHARS` is not 69. -/
theorem C10_counterexample : ¬ (CHARS.length = 69) := by decide

/-- C10, amended: the reference alphabet constant `CHARS` is an ordered
sequence of exactly 68 symbols. -/
theorem C10_CHARS_has_68_symbols : CHARS.length = 68 ∧ CHARS.data.length = 68 := by
  exact ⟨charList_length, charList_length⟩

/-! ## Further lemmas on the alphabet and on segments -/

/-- A symbol of the alphabet has one index only. -/
theorem charList_index_unique (i j : Nat) (a : Char)
    (hi : charList[i]? = some a) (hj : charList[j]? = some a) : i = j := by
  obtain ⟨hlt, _⟩ := List.getElem?_eq_some.mp hi
  exact List.getElem?_inj hlt charList_nodup (hi.trans hj.symm)

/-- What `cipherInput` returns at a position holding the alphabet symbol of
index `idx`: the alphabet symbol of index `shiftIndex cipher (p / 10) idx`. -/
theorem cipherInput_at_alphabet (s : String) (cipher : Bool) (p idx : Nat) (c : Char)
    (hp : s.data[p]? = some c) (hc : charList[idx]? = some c) :
    ∃ (out : String) (j : Nat), cipherInput s cipher = some out ∧ j < 68 ∧
      (j : Int) = shiftIndex cipher (p / SEGMENT_LENGTH) idx ∧
      charList[j]? = some (substitute cipher (p / SEGMENT_LENGTH) c) ∧
      out.data[p]? = some (substitute cipher (p / SEGMENT_LENGTH) c) := by
  obtain ⟨out, h1, _, h3⟩ := cipherInput_getElem? s cipher p
  obtain ⟨j, hj1, hj2, hj3⟩ := substitute_of_getElem? cipher (p / SEGMENT_LENGTH) idx c hc
  exact ⟨out, j, h1, hj1, hj2, hj3, by rw [h3, hp, Option.map_some']⟩

/-- C11: segment 0 is not an identity mapping.  For every input string `s`
and every position `p < min(len(s), 10)` whose character `c` occurs in `CHARS`
at index `idx`, `cipherInput(s, true)` has `CHARS[(idx + 1) mod N]` at position
`p`, `cipherInput(s, false)` has `CHARS[(idx - 1) mod N]` at position `p`
(non-negative residue), and both differ from `c`. -/
theorem C11_segment_zero_shifts (s : String) (p idx : Nat) (c : Char)
    (hp : s.data[p]? = some c) (h10 : p < SEGMENT_LENGTH) (hc : CHARS.data[idx]? = some c) :
    ∃ (out1 out2 : String) (c1 c2 : Char) (r : Nat),
      cipherInput s true = some out1 ∧
      CHARS.data[(idx + 1) % CHARS.length]? = some c1 ∧ out1.data[p]? = some c1 ∧ c1 ≠ c ∧
      cipherInput s false = some out2 ∧
      r < CHARS.length ∧ (r : Int) = ((idx : Int) - 1) % (CHARS.length : Int) ∧
      CHARS.data[r]? = some c2 ∧ out2.data[p]? = some c2 ∧ c2 ≠ c := by
  have hseg : p / SEGMENT_LENGTH = 0 := by
    simp only [SEGMENT_LENGTH] at h10 ⊢
    omega
  obtain ⟨hidx, _⟩ := List.getElem?_eq_some.mp hc
  have hl : CHARS.data.length = 68 := charList_length
  obtain ⟨out1, j, a1, a2, a3, a4, a5⟩ := cipherInput_at_alphabet s true p idx c hp hc
  obtain ⟨out2, r, b1, b2, b3, b4, b5⟩ := cipherInput_at_alphabet s false p idx c hp hc
  rw [hseg] at a3 a4 a5 b3 b4 b5
  simp only [shiftIndex, if_true, Bool.false_eq_true, if_false] at a3 b3
  have hj : (idx + 1) % CHARS.length = j := by
    rw [CHARS_length]
    omega
  refine ⟨out1, out2, substitute true 0 c, substitute false 0 c, r, a1, ?_, a5, ?_, b1, ?_, ?_,
    b4, b5, ?_⟩
  · rw [hj]
    exact a4
  · intro h
    rw [h] at a4
    have := charList_index_unique j idx c a4 hc
    omega
  · rw [CHARS_length]
    exact b2
  · rw [CHARS_length]
    push_cast
    omega
  · intro h
    rw [h] at b4
    have := charList_index_unique r idx c b4 hc
    omega

theorem C11_segment_zero_shifts_witness :
    "Hello, World!".data[4]? = some 'o' ∧ 4 < SEGMENT_LENGTH ∧ CHARS.data[51]? = some 'o' ∧
    ∃ (out1 out2 : String) (c1 c2 : Char) (r : Nat),
      cipherInput "Hello, World!" true = some out1 ∧
      CHARS.data[(51 + 1) % CHARS.length]? = some c1 ∧ out1.data[4]? = some c1 ∧ c1 ≠ 'o' ∧
      cipherInput "Hello, World!" false = some out2 ∧
      r < CHARS.length ∧ (r : Int) = (((51 : Nat) : Int) - 1) % (CHARS.length : Int) ∧
      CHARS.data[r]? = some c2 ∧ out2.data[4]? = some c2 ∧ c2 ≠ 'o' :=
  ⟨by decide, by decide, by decide,
    C11_segment_zero_shifts "Hello, World!" 4 51 'o' (by decide) (by decide) (by decide)⟩

/-- C12: per-segment bijectivity.  Fix a segment index `k`.  The symbol that
`cipherInput(_, true)` produces for an alphabet symbol at a position of segment
`k` depends on the symbol only, lies in `CHARS`, and is the same for two
alphabet symbols only if they are equal (injectivity); and every symbol `e` of
`CHARS` is produced, in segment `k`, from some symbol `a` of `CHARS`
(surjectivity), for instance at position `10 * k` of the input made of
`10 * k + 1` copies of `a`. -/
theorem C12_segment_permutation (k : Nat) (s t : String) (p q : Nat) (c d : Char)
    (hpk : p / SEGMENT_LENGTH = k) (hqk : q / SEGMENT_LENGTH = k)
    (hs : s.data[p]? = some c) (ht : t.data[q]? = some d)
    (hc : c ∈ CHARS.data) (hd : d ∈ CHARS.data) :
    (∃ (o1 o2 : String) (e1 e2 : Char),
      cipherInput s true = some o1 ∧ cipherInput t true = some o2 ∧
      o1.data[p]? = some e1 ∧ o2.data[q]? = some e2 ∧
      e1 ∈ CHARS.data ∧ e2 ∈ CHARS.data ∧ (e1 = e2 ↔ c = d)) ∧
    (∀ e : Char, e ∈ CHARS.data → ∃ a : Char, a ∈ CHARS.data ∧
      (∀ (u : String) (m : Nat), m / SEGMENT_LENGTH = k → u.data[m]? = some a →
        ∃ o : String, cipherInput u true = some o ∧ o.data[m]? = some e) ∧
      (∃ o : String,
        cipherInput (String.mk (List.replicate (SEGMENT_LENGTH * k + 1) a)) true = some o ∧
        o.data[SEGMENT_LENGTH * k]? = some e)) := by
  constructor
  · obtain ⟨o1, a1, _, a3⟩ := cipherInput_getElem? s true p
    obtain ⟨o2, b1, _, b3⟩ := cipherInput_getElem? t true q
    rw [hs, hpk, Option.map_some'] at a3
    rw [ht, hqk, Option.map_some'] at b3
    refine ⟨o1, o2, substitute true k c, substitute true k d, a1, b1, a3, b3,
      (substitute_mem_iff true k c).mpr hc, (substitute_mem_iff true k d).mpr hd, ?_, ?_⟩
    · intro h
      have h1 := substitute_cancel true k c
      have h2 := substitute_cancel true k d
      rw [h] at h1
      exact h1.symm.trans h2
    · intro h
      rw [h]
  · intro e he
    have hcancel : substitute true k (substitute false k e) = e := substitute_cancel false k e
    have hall : ∀ (u : String) (m : Nat), m / SEGMENT_LENGTH = k →
        u.data[m]? = some (substitute false k e) →
        ∃ o : String, cipherInput u true = some o ∧ o.data[m]? = some e := by
      intro u m hm hu
      obtain ⟨o, c1, _, c3⟩ := cipherInput_getElem? u true m
      exact ⟨o, c1, by rw [c3, hu, hm, Option.map_some', hcancel]⟩
    refine ⟨substitute false k e, (substitute_mem_iff false k e).mpr he, hall, ?_⟩
    apply hall
    · simp only [SEGMENT_LENGTH]
      omega
    · show (List.replicate (SEGMENT_LENGTH * k + 1) (substitute false k e))[SEGMENT_LENGTH * k]?
        = some (substitute false k e)
      rw [List.getElem?_replicate]
      exact if_pos (by omega)

theorem C12_segment_permutation_witness :
    (11 / SEGMENT_LENGTH = 1 ∧ 10 / SEGMENT_LENGTH = 1 ∧
      "Hello, World!".data[11]? = some 'd' ∧ "Hello, World!".data[10]? = some 'l' ∧
      'd' ∈ CHARS.data ∧ 'l' ∈ CHARS.data) ∧
    (∃ (o1 o2 : String) (e1 e2 : Char),
      cipherInput "Hello, World!" true = some o1 ∧ cipherInput "Hello, World!" true = some o2 ∧
      o1.data[11]? = some e1 ∧ o2.data[10]? = some e2 ∧
      e1 ∈ CHARS.data ∧ e2 ∈ CHARS.data ∧ (e1 = e2 ↔ 'd' = 'l')) ∧
    (∀ e : Char, e ∈ CHARS.data → ∃ a : Char, a ∈ CHARS.data ∧
      (∀ (u : String) (m : Nat), m / SEGMENT_LENGTH = 1 → u.data[m]? = some a →
        ∃ o : String, cipherInput u true = some o ∧ o.data[m]? = some e) ∧
      (∃ o : String,
        cipherInput (String.mk (List.replicate (SEGMENT_LENGTH * 1 + 1) a)) true = some o ∧
        o.data[SEGMENT_LENGTH * 1]? = some e)) :=
  ⟨⟨by decide, by decide, by decide, by decide, by decide, by decide⟩,
    C12_segment_permutation 1 "Hello, World!" "Hello, World!" 11 10 'd' 'l'
      (by decide) (by decide) (by decide) (by decide) (by decide) (by decide)⟩

/-- C13: segment boundary.  For every input string `s` of length at least 11
whose characters at positions 9 and 10 occur in `CHARS` at indices `i9` and
`i10`, `cipherInput(s, true)` has `CHARS[(i9 + 1) mod N]` at position 9 and
`CHARS[(i10 + 2) mod N]` at position 10: position 9 is the last character of
`getSegment(s, 0)` and position 10 the first character of `getSegment(s, 1)`. -/
theorem C13_segment_boundary (s : String) (i9 i10 : Nat) (c9 c10 : Char)
    (_hlen : 11 ≤ s.length)
    (h9 : s.data[9]? = some c9) (h10 : s.data[10]? = some c10)
    (hc9 : CHARS.data[i9]? = some c9) (hc10 : CHARS.data[i10]? = some c10) :
    ∃ (out : String) (e9 e10 : Char), cipherInput s true = some out ∧
      CHARS.data[(i9 + 1) % CHARS.length]? = some e9 ∧ out.data[9]? = some e9 ∧
      CHARS.data[(i10 + 2) % CHARS.length]? = some e10 ∧ out.data[10]? = some e10 ∧
      (getSegment s.data 0)[9]? = some c9 ∧ (getSegment s.data 1)[0]? = some c10 := by
  obtain ⟨out, j9, a1, _, a3, a4, a5⟩ := cipherInput_at_alphabet s true 9 i9 c9 h9 hc9
  obtain ⟨out1, j10, b1, _, b3, b4, b5⟩ := cipherInput_at_alphabet s true 10 i10 c10 h10 hc10
  have ho : out1 = out := Option.some.inj (b1.symm.trans a1)
  rw [ho] at b5
  simp only [shiftIndex, if_true, SEGMENT_LENGTH] at a3 b3
  have e9 : (i9 + 1) % CHARS.length = j9 := by
    rw [CHARS_length]
    omega
  have e10 : (i10 + 2) % CHARS.length = j10 := by
    rw [CHARS_length]
    omega
  have g0 := getSegment_eq s.data 0
  have g1 := getSegment_eq s.data 1
  simp only [Nat.cast_zero, Nat.cast_one] at g0 g1
  refine ⟨out, _, _, a1, ?_, a5, ?_, b5, ?_, ?_⟩
  · rw [e9]; exact a4
  · rw [e10]; exact b4
  · rw [g0, List.getElem?_take_of_lt (by omega)]
    simpa using h9
  · rw [g1, List.getElem?_take_of_lt (by omega)]
    simpa using h10

theorem C13_segment_boundary_witness :
    (11 ≤ "Hello, World!".length ∧
      "Hello, World!".data[9]? = some 'r' ∧ "Hello, World!".data[10]? = some 'l' ∧
      CHARS.data[23]? = some 'r' ∧ CHARS.data[63]? = some 'l') ∧
    ∃ (out : String) (e9 e10 : Char), cipherInput "Hello, World!" true = some out ∧
      CHARS.data[(23 + 1) % CHARS.length]? = some e9 ∧ out.data[9]? = some e9 ∧
      CHARS.data[(63 + 2) % CHARS.length]? = some e10 ∧ out.data[10]? = some e10 ∧
      (getSegment "Hello, World!".data 0)[9]? = some 'r' ∧
      (getSegment "Hello, World!".data 1)[0]? = some 'l' :=
  ⟨⟨by decide, by decide, by decide, by decide, by decide⟩,
    C13_segment_boundary "Hello, World!" 23 63 'r' 'l'
      (by decide) (by decide) (by decide) (by decide) (by decide)⟩

/-- C14: empty input.  `cipherInput("", true) = ""` and
`cipherInput("", false) = ""`; the empty input has no segment. -/
theorem C14_empty_input :
    cipherInput "" true = some "" ∧ cipherInput "" false = some "" ∧
      numberOfSegments "".data = 0 := by
  refine ⟨?_, ?_, rfl⟩
  · rw [cipherInput_eq]; rfl
  · rw [cipherInput_eq]; rfl

/-- C15: locality.  For every direction, every two input strings `s` and `t`
and every position `p` of both with `s[p] = t[p]`, the outputs of
`cipherInput` for `s` and for `t` have the same character `e` at position `p`;
more generally `e` is the output at every position `q` of the segment of `p`
of any input `u` with `u[q] = s[p]`. -/
theorem C15_locality (s t : String) (cipher : Bool) (p : Nat) (c : Char)
    (hs : s.data[p]? = some c) (ht : t.data[p]? = some c) :
    ∃ (o1 o2 : String) (e : Char),
      cipherInput s cipher = some o1 ∧ cipherInput t cipher = some o2 ∧
      o1.data[p]? = some e ∧ o2.data[p]? = some e ∧
      ∀ (u : String) (q : Nat), q / SEGMENT_LENGTH = p / SEGMENT_LENGTH →
        u.data[q]? = some c → ∃ o3 : String, cipherInput u cipher = some o3 ∧
          o3.data[q]? = some e := by
  obtain ⟨o1, a1, _, a3⟩ := cipherInput_getElem? s cipher p
  obtain ⟨o2, b1, _, b3⟩ := cipherInput_getElem? t cipher p
  refine ⟨o1, o2, substitute cipher (p / SEGMENT_LENGTH) c, a1, b1, ?_, ?_, ?_⟩
  · rw [a3, hs, Option.map_some']
  · rw [b3, ht, Option.map_some']
  · intro u q hq hu
    obtain ⟨o3, c1, _, c3⟩ := cipherInput_getElem? u cipher q
    exact ⟨o3, c1, by rw [c3, hu, hq, Option.map_some']⟩

theorem C15_locality_witness :
    ("Hello, World!".data[2]? = some 'l' ∧ "collapse".data[2]? = some 'l') ∧
    ∃ (o1 o2 : String) (e : Char),
      cipherInput "Hello, World!" false = some o1 ∧ cipherInput "collapse" false = some o2 ∧
      o1.data[2]? = some e ∧ o2.data[2]? = some e ∧
      ∀ (u : String) (q : Nat), q / SEGMENT_LENGTH = 2 / SEGMENT_LENGTH →
        u.data[q]? = some 'l' → ∃ o3 : String, cipherInput u false = some o3 ∧
          o3.data[q]? = some e :=
  ⟨⟨by decide, by decide⟩,
    C15_locality "Hello, World!" "collapse" false 2 'l' (by decide) (by decide)⟩

/-- Element `j` of segment `k` is element `10 * k + j` of the input, for `j < 10`. -/
theorem getSegment_getElem? (s : List Char) (k j : Nat) :
    (getSegment s (k : Int))[j]? = if j < 10 then s[10 * k + j]? else none := by
  rw [getSegment_eq, List.getElem?_take, List.getElem?_drop]

theorem getSegment_length (s : List Char) (k : Nat) :
    (getSegment s (k : Int)).length = min 10 (s.length - 10 * k) := by
  rw [getSegment_eq, List.length_take, List.length_drop]

/-- The first `n` segments, concatenated, are the first `10 * n` characters. -/
theorem flatten_segments (s : List Char) (n : Nat) :
    ((List.range n).map (fun i : Nat => getSegment s (i : Int))).flatten = s.take (10 * n) := by
  induction n with
  | zero => simp
  | succ n ih =>
    have e : 10 * (n + 1) = 10 * n + 10 := by omega
    rw [List.range_succ, List.map_append, List.flatten_append, ih, e, List.take_add]
    simp only [List.map_cons, List.map_nil, List.flatten_cons, List.flatten_nil,
      List.append_nil, getSegment_eq]

/-- C16: segment contents.  For every list of characters `s` and every segment
number `num ≥ 0`, `getSegment(s, num)` is the run of `s` at positions
`[num * SEGMENT_LENGTH, min((num + 1) * SEGMENT_LENGTH, len(s)))`, in order
(empty when `num * SEGMENT_LENGTH ≥ len(s)`); it has at most `SEGMENT_LENGTH`
characters, and when it has fewer, no segment after it is counted by
`numberOfSegments`. -/
theorem C16_segment_contents (s : List Char) (num : Int) (hnum : 0 ≤ num) :
    getSegment s num
      = (s.take (min ((num.toNat + 1) * SEGMENT_LENGTH) s.length)).drop
          (num.toNat * SEGMENT_LENGTH) ∧
    (∀ j : Nat, (getSegment s num)[j]?
      = if num.toNat * SEGMENT_LENGTH + j < min ((num.toNat + 1) * SEGMENT_LENGTH) s.length
        then s[num.toNat * SEGMENT_LENGTH + j]? else none) ∧
    (getSegment s num).length
      = min ((num.toNat + 1) * SEGMENT_LENGTH) s.length - num.toNat * SEGMENT_LENGTH ∧
    (s.length ≤ num.toNat * SEGMENT_LENGTH → getSegment s num = []) ∧
    (getSegment s num).length ≤ SEGMENT_LENGTH ∧
    ((getSegment s num).length < SEGMENT_LENGTH → numberOfSegments s ≤ num.toNat + 1) := by
  obtain ⟨k, rfl⟩ : ∃ k : Nat, num = (k : Int) := ⟨num.toNat, by omega⟩
  have hlen := getSegment_length s k
  have helem : ∀ j : Nat, (getSegment s (k : Int))[j]?
      = if k * SEGMENT_LENGTH + j < min ((k + 1) * SEGMENT_LENGTH) s.length
        then s[k * SEGMENT_LENGTH + j]? else none := by
    intro j
    rw [getSegment_getElem?]
    simp only [SEGMENT_LENGTH]
    have e : k * 10 + j = 10 * k + j := by omega
    rw [e]
    by_cases h1 : j < 10
    · by_cases h2 : 10 * k + j < s.length
      · rw [if_pos h1, if_pos (by omega)]
      · rw [if_pos h1, if_neg (by omega), List.getElem?_eq_none (by omega)]
    · rw [if_neg h1, if_neg (by omega)]
  simp only [Int.toNat_ofNat]
  refine ⟨?_, helem, ?_, ?_, ?_, ?_⟩
  · apply List.ext_getElem?
    intro j
    rw [helem, List.getElem?_drop, List.getElem?_take]
  · rw [hlen]
    simp only [SEGMENT_LENGTH]
    omega
  · intro h
    apply List.eq_nil_of_length_eq_zero
    rw [hlen]
    simp only [SEGMENT_LENGTH] at h
    omega
  · rw [hlen]
    simp only [SEGMENT_LENGTH]
    omega
  · rw [hlen, numberOfSegments_eq]
    simp only [SEGMENT_LENGTH]
    omega

theorem C16_segment_contents_witness :
    (0 : Int) ≤ 1 ∧
    (getSegment "Hello, World!".data 1
      = ("Hello, World!".data.take
          (min (((1 : Int).toNat + 1) * SEGMENT_LENGTH) "Hello, World!".data.length)).drop
          ((1 : Int).toNat * SEGMENT_LENGTH) ∧
    (∀ j : Nat, (getSegment "Hello, World!".data 1)[j]?
      = if (1 : Int).toNat * SEGMENT_LENGTH + j
          < min (((1 : Int).toNat + 1) * SEGMENT_LENGTH) "Hello, World!".data.length
        then "Hello, World!".data[(1 : Int).toNat * SEGMENT_LENGTH + j]? else none) ∧
    (getSegment "Hello, World!".data 1).length
      = min (((1 : Int).toNat + 1) * SEGMENT_LENGTH) "Hello, World!".data.length
        - (1 : Int).toNat * SEGMENT_LENGTH ∧
    ("Hello, World!".data.length ≤ (1 : Int).toNat * SEGMENT_LENGTH →
      getSegment "Hello, World!".data 1 = []) ∧
    (getSegment "Hello, World!".data 1).length ≤ SEGMENT_LENGTH ∧
    ((getSegment "Hello, World!".data 1).length < SEGMENT_LENGTH →
      numberOfSegments "Hello, World!".data ≤ (1 : Int).toNat + 1)) :=
  ⟨by decide, C16_segment_contents "Hello, World!".data 1 (by decide)⟩

/-- C17: segment count.  For every list of characters `s`,
`numberOfSegments(s)` is `ceil(len(s) / SEGMENT_LENGTH)`: the ceiling of the
rational quotient, which is the least `n` with `len(s) ≤ n * SEGMENT_LENGTH`;
and `numberOfSegments` of the empty list is 0. -/
theorem C17_segment_count (s : List Char) :
    numberOfSegments s = ⌈(s.length : ℚ) / (SEGMENT_LENGTH : ℚ)⌉₊ ∧
    s.length ≤ numberOfSegments s * SEGMENT_LENGTH ∧
    (∀ m : Nat, s.length ≤ m * SEGMENT_LENGTH → numberOfSegments s ≤ m) ∧
    numberOfSegments [] = 0 := by
  have hn := numberOfSegments_eq s
  have h1 : s.length ≤ numberOfSegments s * 10 := by omega
  have h2 : ∀ m : Nat, s.length ≤ m * 10 → numberOfSegments s ≤ m := by
    intro m hm
    omega
  refine ⟨?_, h1, h2, rfl⟩
  have hq : ((SEGMENT_LENGTH : Nat) : ℚ) = 10 := by norm_num [SEGMENT_LENGTH]
  rw [hq]
  apply le_antisymm
  · by_contra hlt
    have h3 : ⌈(s.length : ℚ) / 10⌉₊ ≤ numberOfSegments s - 1 := by omega
    have h4 : (s.length : ℚ) / 10 ≤ ((numberOfSegments s - 1 : Nat) : ℚ) := Nat.ceil_le.mp h3
    have h5 : (s.length : ℚ) ≤ ((numberOfSegments s - 1 : Nat) : ℚ) * 10 := by
      have h6 := mul_le_mul_of_nonneg_right h4 (by norm_num : (0 : ℚ) ≤ 10)
      simpa using h6
    have h7 : s.length ≤ (numberOfSegments s - 1) * 10 := by exact_mod_cast h5
    have h8 := h2 (numberOfSegments s - 1) h7
    omega
  · apply Nat.ceil_le.mpr
    have h9 : (s.length : ℚ) ≤ (numberOfSegments s : ℚ) * 10 := by exact_mod_cast h1
    linarith

/-- C18: segments partition the input.  For every list of characters `s`,
concatenating `getSegment(s, 0)`, ..., `getSegment(s, numberOfSegments(s) - 1)`
in that order yields exactly `s`, and each of these segments is non-empty. -/
theorem C18_segments_partition (s : List Char) :
    ((List.range (numberOfSegments s)).map (fun i : Nat => getSegment s (i : Int))).flatten = s ∧
    ∀ i : Nat, i < numberOfSegments s → getSegment s (i : Int) ≠ [] := by
  have hn := numberOfSegments_eq s
  constructor
  · rw [flatten_segments]
    apply List.take_of_length_le
    omega
  · intro i hi h
    have hlen := getSegment_length s i
    rw [h, List.length_nil] at hlen
    omega

theorem C18_segments_partition_witness :
    ((List.range (numberOfSegments "Hello, World!".data)).map
        (fun i : Nat => getSegment "Hello, World!".data (i : Int))).flatten
      = "Hello, World!".data ∧
    1 < numberOfSegments "Hello, World!".data ∧
    getSegment "Hello, World!".data ((1 : Nat) : Int) ≠ [] :=
  ⟨(C18_segments_partition "Hello, World!".data).1, by decide,
    (C18_segments_partition "Hello, World!".data).2 1 (by decide)⟩

/-- C19: the alphabet is duplicate-free.  `CHARS` has no repeated symbol: every
symbol `c` of `CHARS` occurs in it exactly once, there is exactly one index `i`
in `[0, N)` with `CHARS[i] = c`, and the inner loop of `cipherInput` appends
exactly one character to the output for the letter `c`. -/
theorem C19_alphabet_duplicate_free (c : Char) (hc : c ∈ CHARS.data)
    (cipher : Bool) (segNum : Nat) (output : List Char) :
    CHARS.data.Nodup ∧ CHARS.data.count c = 1 ∧
    (∃! i : Nat, i < CHARS.length ∧ CHARS.data[i]? = some c) ∧
    ∃ e : Char, charLoop cipher segNum c 0 charList output = some (output ++ [e]) := by
  refine ⟨charList_nodup, List.count_eq_one_of_mem charList_nodup hc, ?_,
    ⟨_, charLoop_mem cipher segNum c output hc⟩⟩
  obtain ⟨i, hi, hget⟩ := List.getElem_of_mem hc
  have h0 : CHARS.data[i]? = some c := by rw [List.getElem?_eq_getElem hi, hget]
  refine ⟨i, ⟨hi, h0⟩, ?_⟩
  rintro j ⟨_, hj⟩
  exact charList_index_unique j i c hj h0

theorem C19_alphabet_duplicate_free_witness :
    'a' ∈ CHARS.data ∧
    (CHARS.data.Nodup ∧ CHARS.data.count 'a' = 1 ∧
    (∃! i : Nat, i < CHARS.length ∧ CHARS.data[i]? = some 'a') ∧
    ∃ e : Char, charLoop true 3 'a' 0 charList ['x'] = some (['x'] ++ [e])) :=
  ⟨by decide, C19_alphabet_duplicate_free 'a' (by decide) true 3 ['x']⟩

/-- C20: alphabet membership is preserved position by position.  For every
input string `s`, both directions and every position `p` of `s`, the character
`e` at position `p` of `cipherInput(s, cipher)` occurs in `CHARS` if and only
if the character `c` at position `p` of `s` does; `isInSlice` gives the same
answer for both. -/
theorem C20_membership_preserved (s : String) (cipher : Bool) (p : Nat) (c : Char)
    (hp : s.data[p]? = some c) :
    ∃ (out : String) (e : Char), cipherInput s cipher = some out ∧ out.data[p]? = some e ∧
      (e ∈ CHARS.data ↔ c ∈ CHARS.data) ∧
      isInSlice charList e = isInSlice charList c := by
  obtain ⟨out, h1, _, h3⟩ := cipherInput_getElem? s cipher p
  have hm := substitute_mem_iff cipher (p / SEGMENT_LENGTH) c
  refine ⟨out, substitute cipher (p / SEGMENT_LENGTH) c, h1, ?_, hm, ?_⟩
  · rw [h3, hp, Option.map_some']
  · rw [Bool.eq_iff_iff, isInSlice_iff, isInSlice_iff]
    exact hm

theorem C20_membership_preserved_witness :
    "Hello, World!".data[5]? = some ',' ∧
    ∃ (out : String) (e : Char), cipherInput "Hello, World!" true = some out ∧
      out.data[5]? = some e ∧ (e ∈ CHARS.data ↔ ',' ∈ CHARS.data) ∧
      isInSlice charList e = isInSlice charList ',' :=
  ⟨by decide, C20_membership_preserved "Hello, World!" true 5 ',' (by decide)⟩

end Cipher
